import Mathlib

/-!
# Verification of the segtok span-tracking tokenizers

Shallow embedding of `segtok/tokenizer.py`, `segtok/re_utils.py` and
`segtok/span_utils.py`.  Texts are lists of characters, spans are half-open
pairs of codepoint offsets into the text that was tokenized.  The regular
expressions of the source are embedded as executable matchers with the
leftmost, non-overlapping, greedy-with-ordered-alternation semantics of the
Python `regex` module; Unicode letter/number categories are modelled exactly
on the Basic Latin range used throughout this development.
-/

namespace Segtok

/-- A span: half-open codepoint-offset range into a text. -/
abbrev Span := Nat × Nat

/-- A token: `(text, span)` pair, as produced by every tokenizer. -/
abbrev Token := List Char × Span

/-- Coerce a string literal to the character-list representation used here. -/
def str (s : String) : List Char := s.data

/-- `text[s:e]` as in Python slicing (clamped at the borders). -/
def extract (text : List Char) (s e : Nat) : List Char :=
  (text.drop s).take (e - s)

/-- Character of `text` at index `i`, with a NUL default out of range
(the NUL default belongs to no character class used below, so reading past
the end makes every class test fail, exactly like running off the string). -/
def cAt (text : List Char) (i : Nat) : Char :=
  (text.get? i).getD (Char.ofNat 0)

/-! ## Character alphabets of `tokenizer.py` (and modelled external constants) -/

/-- `APOSTROPHES`: all apostrophe-like marks, including the ASCII single quote. -/
def APOSTROPHES : List Char := ['\'', '\u00B4', '\u02B9', '\u02BC', '\u2019', '\u2032']

/-- The `APOSTROPHE` character class: apostrophe-like marks without the ASCII quote. -/
def apoClass : List Char := ['\u00B4', '\u02B9', '\u02BC', '\u2019', '\u2032']

/-- Modelled from the spec: `SENTENCE_TERMINALS` is imported from the external
sentence segmenter, which is not part of this repository's sources; the spec
describes it as "an externally supplied alphabet marking sentence-final
punctuation (e.g., '.', '!', '?')". -/
def SENTENCE_TERMINALS : List Char := ['.', '!', '?']

/-- Modelled from the spec: `HYPHENS` is imported from the external sentence
segmenter, which is not part of this repository's sources; the spec's examples
join words with the ASCII hyphen-minus. -/
def HYPHENS : List Char := ['-']

/-- Membership in the `HYPHEN` character class. -/
def isHyphenCh (c : Char) : Bool := HYPHENS.contains c

/-- The `LETTER` class `[\p{Ll}\p{Lm}\p{Lt}\p{Lu}]`; modelled exactly on the
Basic Latin range. -/
def isLetterCh (c : Char) : Bool :=
  ('A' ≤ c && c ≤ 'Z') || ('a' ≤ c && c ≤ 'z')

/-- The `NUMBER` class `[\p{Nd}\p{Nl}]`; modelled exactly on the Basic Latin range. -/
def isNumberCh (c : Char) : Bool := '0' ≤ c && c ≤ '9'

/-- The `ALNUM` class: any `LETTER` or `NUMBER` character. -/
def isAlnumCh (c : Char) : Bool := isLetterCh c || isNumberCh c

/-- The `SPACE` class `[\p{Zs}\t]`: any Unicode space-category character plus
the horizontal tab (the full Zs category, which is finite, is listed). -/
def isSpaceCh (c : Char) : Bool :=
  c = ' ' || c = '\t' || c = '\u00A0' || c = '\u1680' ||
  ('\u2000' ≤ c && c ≤ '\u200A') || c = '\u202F' || c = '\u205F' || c = '\u3000'

/-- A single-character linebreak of the `LINEBREAK` alternation (besides `\r\n`). -/
def isLinebreakCh (c : Char) : Bool := c = '\n' || c = '\r' || c = '\u2028'

/-- The `\s` class of the Python `regex` module (Unicode whitespace): this is
the separator class of `space_tokenizer`, and properly contains `SPACE`
(in particular it holds all linebreak characters). -/
def isPyWs (c : Char) : Bool :=
  c = '\t' || c = '\n' || c = '\u000B' || c = '\u000C' || c = '\r' ||
  ('\u001C' ≤ c && c ≤ '\u001F') || c = ' ' || c = '\u0085' || c = '\u00A0' ||
  c = '\u1680' || ('\u2000' ≤ c && c ≤ '\u200A') || c = '\u2028' || c = '\u2029' ||
  c = '\u202F' || c = '\u205F' || c = '\u3000'

/-- The `\w` word-character class of the `regex` module, as needed by the `\b`
assertions of the word-classification pattern: letters, digits, the underscore,
and the subscript and superscript digit characters that the pattern uses. -/
def isWordCh (c : Char) : Bool :=
  isLetterCh c || isNumberCh c || c = '_' ||
  ('\u2080' ≤ c && c ≤ '\u2089') || c = '\u00B9' || c = '\u00B2' || c = '\u00B3'

/-! ## `re_utils.split_with_spans` and `span_utils.make_sub` -/

/-- One match of a compiled pattern over a text: its overall span and the list
of its captured groups, each carried as `(group text, group span)` exactly as
`re_utils.split_with_spans` reads them off the match object. -/
structure RMatch where
  mstart : Nat
  mend : Nat
  groups : List Token
deriving Repr, DecidableEq

/-- Body of `re_utils.split_with_spans`: the loop over `regex.finditer(text)`
carrying `last_end`, yielding the unmatched stretch before each match, then
the match's groups, and finally the tail `text[last_end:len(text)]`. -/
def split_with_spans_aux (text : List Char) : Nat → List RMatch → List Token
  | last_end, [] => [(extract text last_end text.length, (last_end, text.length))]
  | last_end, m :: ms =>
      (extract text last_end m.mstart, (last_end, m.mstart)) :: m.groups ++
        split_with_spans_aux text m.mend ms

/-- `re_utils.split_with_spans(regex, text)`, with the matches of the regex
passed explicitly. -/
def split_with_spans (text : List Char) (ms : List RMatch) : List Token :=
  split_with_spans_aux text 0 ms

/-- `span_utils.make_sub`: translate an inner token's (local) span into the
coordinate space of the outer token. -/
def make_sub (outer inner : Token) : Token :=
  (inner.1, (outer.2.1 + inner.2.1, outer.2.1 + inner.2.2))

/-! ## Maximal-run matchers

`space_tokenizer`'s pattern `\s+` and `symbol_tokenizer`'s pattern `(alnum+)`
both match exactly the maximal runs of a character class, found left to right:
`runsAux` is that scanner, carrying the currently open run. -/

/-- Scanner producing the maximal runs (as spans) of characters satisfying `p`,
starting at position `pos`, with `cur` the currently open run (whose end is
always `pos`). -/
def runsAux (p : Char → Bool) : List Char → Nat → Option Span → List Span
  | [], _, none => []
  | [], _, some r => [r]
  | c :: rest, pos, none =>
      if p c then runsAux p rest (pos + 1) (some (pos, pos + 1))
      else runsAux p rest (pos + 1) none
  | c :: rest, pos, some (s, e) =>
      if p c then runsAux p rest (pos + 1) (some (s, e + 1))
      else (s, e) :: runsAux p rest (pos + 1) none

/-- The maximal runs of class `p` in `text` (the matches of `p+`). -/
def runsOf (p : Char → Bool) (text : List Char) : List Span :=
  runsAux p text 0 none

/-- `finditer(r'\s+', text)`: whitespace separator matches; the pattern has no
capture group, so the match list carries no groups. -/
def wsMatches (text : List Char) : List RMatch :=
  (runsOf isPyWs text).map fun r => ⟨r.1, r.2, []⟩

/-- `finditer(r'(alnum+)', text)`: alphanumeric-run matches; the single capture
group is the whole match, carried verbatim with its span. -/
def alnumMatches (text : List Char) : List RMatch :=
  (runsOf isAlnumCh text).map fun r => ⟨r.1, r.2, [(extract text r.1 r.2, r)]⟩

/-! ## `space_tokenizer` and `symbol_tokenizer` -/

/-- `space_tokenizer`: split on `\s+` and drop the empty segments. -/
def space_tokenizer (sentence : List Char) : List Token :=
  (split_with_spans sentence (wsMatches sentence)).filter fun t => !t.1.isEmpty

/-- `symbol_tokenizer`: refine every space token into the pieces of its
`(alnum+)` split, dropping empties, and recoordinate each piece with
`make_sub`. -/
def symbol_tokenizer (sentence : List Char) : List Token :=
  (space_tokenizer sentence).flatMap fun sp =>
    ((split_with_spans sp.1 (alnumMatches sp.1)).filter fun t => !t.1.isEmpty).map
      fun t => make_sub sp t

/-! ## The word-classification pattern of `word_tokenizer`

The compiled pattern is one capture group holding one-or-more repetitions of
ten alternatives, tried in the written order at each position.  No alternative
is revisited once chosen: the only continuation of a repetition is "more
repetitions or stop", which always succeeds, so the backtracking engine never
returns into a completed repetition.  The bounded quantifiers inside the
alternatives (`{apo}?`, `{letter}{1,3}`, `⁻?`) are expanded greedily,
longest option first, exactly as the engine tries them. -/

/-- Superscript one, two and three. -/
def isSup123 (c : Char) : Bool := c = '\u00B9' || c = '\u00B2' || c = '\u00B3'

/-- Superscript two and three. -/
def isSup23 (c : Char) : Bool := c = '\u00B2' || c = '\u00B3'

/-- Superscript plus and minus. -/
def isSupPM (c : Char) : Bool := c = '\u207A' || c = '\u207B'

/-- The `SUBDIGIT` class: subscript digits. -/
def isSubdigit (c : Char) : Bool := '\u2080' ≤ c && c ≤ '\u2089'

/-- The SI magnitude-prefix class `[yzafpnµmcdhkMGTPEZY]` of alternative 8. -/
def siMagnitudeChars : List Char :=
  ['y', 'z', 'a', 'f', 'p', 'n', '\u00B5', 'm', 'c', 'd', 'h', 'k',
   'M', 'G', 'T', 'P', 'E', 'Z', 'Y']

/-- ASCII `[A-Z]` as written in alternative 9. -/
def isUpperCh (c : Char) : Bool := 'A' ≤ c && c ≤ 'Z'

/-- ASCII `[a-z]` as written in alternative 9. -/
def isLowerCh (c : Char) : Bool := 'a' ≤ c && c ≤ 'z'

/-- The `$` anchor without MULTILINE: end of text, or just before a final newline. -/
def dollarAt (cs : List Char) (n j : Nat) : Bool :=
  j = n || (j + 1 = n && cAt cs j = '\n')

/-- The `\b` word-boundary assertion at position `i` of a text of length `n`. -/
def wbAt (cs : List Char) (n i : Nat) : Bool :=
  (decide (0 < i) && isWordCh (cAt cs (i - 1))) !=
    (decide (i < n) && isWordCh (cAt cs i))

/-- `⁻?[¹²³] $` (the `POWER` suffix of alternative 8),
superscript minus tried first. -/
def powTail (cs : List Char) (n j : Nat) : Option Nat :=
  if cAt cs j = '\u207B' && isSup123 (cAt cs (j + 1)) && dollarAt cs n (j + 2) then
    some (j + 2)
  else if isSup123 (cAt cs j) && dollarAt cs n (j + 1) then some (j + 1)
  else none

/-- `{letter}{1,3} {power} $` starting at `j`: three letters tried first. -/
def lettersThenPow (cs : List Char) (n j : Nat) : Option Nat :=
  (if isLetterCh (cAt cs j) && isLetterCh (cAt cs (j + 1)) &&
      isLetterCh (cAt cs (j + 2)) then powTail cs n (j + 3) else none) <|>
  (if isLetterCh (cAt cs j) && isLetterCh (cAt cs (j + 1)) then
      powTail cs n (j + 2) else none) <|>
  (if isLetterCh (cAt cs j) then powTail cs n (j + 1) else none)

/-- The greedy repetitions of `(?:[A-Z][a-z]?|[\)\]])` of alternative 9,
returning the position after the last repetition (which may be the start). -/
def chemReps (cs : List Char) : Nat → Nat → Nat
  | 0, p => p
  | f + 1, p =>
      if isUpperCh (cAt cs p) then
        if isLowerCh (cAt cs (p + 1)) then chemReps cs f (p + 2)
        else chemReps cs f (p + 1)
      else if cAt cs p = ')' || cAt cs p = ']' then chemReps cs f (p + 1)
      else p

/-- End of the maximal run of class `p` starting at `j` (`p*`/`p+` matching). -/
def runEnd (p : Char → Bool) (cs : List Char) : Nat → Nat → Nat
  | 0, j => j
  | f + 1, j => if p (cAt cs j) then runEnd p cs f (j + 1) else j

/-- The optional ionization suffix `(?:[²³]?[⁺⁻])?`. -/
def ionTail (cs : List Char) (p : Nat) : Nat :=
  if isSup23 (cAt cs p) && isSupPM (cAt cs (p + 1)) then p + 2
  else if isSupPM (cAt cs p) then p + 1
  else p

/-- One repetition of the word-classification group at position `i`: the ten
alternatives in the order of the pattern; returns the position after the
consumed characters (lookaheads consume nothing). -/
def wordAlt (cs : List Char) (n i : Nat) : Option Nat :=
  -- 1: alnum dot, not starting an ellipsis
  if isAlnumCh (cAt cs i) && cAt cs (i + 1) = '.' &&
      !(cAt cs (i + 2) = '.' && cAt cs (i + 3) = '.') then some (i + 2)
  -- 2: comma surrounded by alnum
  else if isAlnumCh (cAt cs i) && cAt cs (i + 1) = ',' && isAlnumCh (cAt cs (i + 2)) then
    some (i + 2)
  -- 3: colon surrounded by digits
  else if isNumberCh (cAt cs i) && cAt cs (i + 1) = ':' && isNumberCh (cAt cs (i + 2)) then
    some (i + 2)
  -- 4: hyphen joining, with the optional apostrophe tried first
  else if isAlnumCh (cAt cs i) && apoClass.contains (cAt cs (i + 1)) &&
      isHyphenCh (cAt cs (i + 2)) && isAlnumCh (cAt cs (i + 3)) then some (i + 3)
  else if isAlnumCh (cAt cs i) && isHyphenCh (cAt cs (i + 1)) && isAlnumCh (cAt cs (i + 2)) then
    some (i + 2)
  -- 5: non-consecutive apostrophe-like mark
  else if apoClass.contains (cAt cs i) && !apoClass.contains (cAt cs (i + 1)) then
    some (i + 1)
  -- 6: ASCII single quote surrounded by alnum
  else if isAlnumCh (cAt cs i) && cAt cs (i + 1) = '\'' && isAlnumCh (cAt cs (i + 2)) then
    some (i + 2)
  -- 7: s' at the end
  else if cAt cs i = 's' && cAt cs (i + 1) = '\'' && dollarAt cs n (i + 2) then some (i + 2)
  -- 8: physical-unit dimensions
  else match
    (if wbAt cs n i then
        (if siMagnitudeChars.contains (cAt cs i) then lettersThenPow cs n (i + 1)
         else none) <|> lettersThenPow cs n i
     else none) with
  | some e => some e
  | none =>
    -- 9: chemical formula fragments with subscripts
    match
      (if wbAt cs n i then
          let r := chemReps cs (n + 1) i
          if i < r then
            let sd := runEnd isSubdigit cs (n + 1) r
            if r < sd then some (ionTail cs sd) else none
          else none
       else none) with
    | some e => some e
    | none =>
      -- 10: any single alnum
      if isAlnumCh (cAt cs i) then some (i + 1) else none

/-- The greedy `+` over the repetitions: consume repetitions while one applies. -/
def wordRepsAux (cs : List Char) (n : Nat) : Nat → Nat → Nat
  | 0, p => p
  | f + 1, p =>
      match wordAlt cs n p with
      | some q => wordRepsAux cs n f q
      | none => p

/-- Attempt of the whole word-classification pattern at position `i`: at least
one repetition, then as many more as possible. -/
def wordMatchAt (cs : List Char) (n i : Nat) : Option Nat :=
  match wordAlt cs n i with
  | some q => some (wordRepsAux cs n (n + 1) q)
  | none => none

/-- `finditer` of the word-classification pattern: leftmost non-overlapping
matches; the single capture group is the whole match. -/
def wordMatchesAux (cs : List Char) (n : Nat) : Nat → Nat → List RMatch
  | 0, _ => []
  | f + 1, i =>
      if n ≤ i then []
      else
        match wordMatchAt cs n i with
        | some e => ⟨i, e, [(extract cs i e, (i, e))]⟩ :: wordMatchesAux cs n f e
        | none => wordMatchesAux cs n f (i + 1)

/-- All matches of the word-classification pattern in `cs`. -/
def wordMatches (cs : List Char) : List RMatch :=
  wordMatchesAux cs cs.length (cs.length + 1) 0

/-- `word_tokenizer.match(word)`: does the pattern match at position 0? -/
def wordHasMatchAt0 (w : List Char) : Bool := (wordMatchAt w w.length 0).isSome

/-- `APO_MATCHER.match(word)`: does `word` start with a non-ASCII apostrophe mark? -/
def apoMatchAt0 (w : List Char) : Bool :=
  match w with
  | [] => false
  | c :: _ => apoClass.contains c

/-! ## Stage A: hyphenated-linebreak pruning (`HYPHENATED_LINEBREAK.sub`) -/

/-- End of the maximal `SPACE` (Zs/tab) run starting at `j`; the lazy `*?`
quantifiers of the pattern are equivalent to this because the space class is
disjoint from the linebreak and alnum classes that must follow. -/
def spacesEnd (cs : List Char) : Nat → Nat → Nat
  | 0, j => j
  | f + 1, j => if isSpaceCh (cAt cs j) then spacesEnd cs f (j + 1) else j

/-- The `LINEBREAK` alternation `(?:\r\n|\n|\r| )` at position `j`. -/
def linebreakEnd (cs : List Char) (j : Nat) : Option Nat :=
  if cAt cs j = '\r' && cAt cs (j + 1) = '\n' then some (j + 2)
  else if isLinebreakCh (cAt cs j) then some (j + 1)
  else none

/-- Try `HYPHENATED_LINEBREAK` at position `i`: alnum, hyphen, optional spaces,
one linebreak, optional spaces, alnum.  On success returns `(k, e)`: the
position `k` of the continuation character (= `match.start(2)`) and the match
end `e = k + 1`. -/
def hlbTry (cs : List Char) (n i : Nat) : Option (Nat × Nat) :=
  if isAlnumCh (cAt cs i) && isHyphenCh (cAt cs (i + 1)) then
    match linebreakEnd cs (spacesEnd cs n (i + 2)) with
    | some j2 =>
        let k := spacesEnd cs n j2
        if isAlnumCh (cAt cs k) then some (k, k + 1) else none
    | none => none
  else none

/-- The left-to-right scan of `HYPHENATED_LINEBREAK.sub(prune, sentence)`:
every match is replaced by `group(1) + group(2)` and the removed range
`(match.end(1), match.start(2))` is appended to the pruned-span list. -/
def hlbAux (cs : List Char) (n : Nat) : Nat → Nat → List Char × List Span
  | 0, _ => ([], [])
  | f + 1, i =>
      if n ≤ i then ([], [])
      else
        match hlbTry cs n i with
        | some (k, e) =>
            let r := hlbAux cs n f e
            (cAt cs i :: cAt cs (i + 1) :: cAt cs k :: r.1, (i + 2, k) :: r.2)
        | none =>
            let r := hlbAux cs n f (i + 1)
            (cAt cs i :: r.1, r.2)

/-- Stage A: the pruned text and the pruned-span list of `word_tokenizer`. -/
def hlbPrune (cs : List Char) : List Char × List Span :=
  hlbAux cs cs.length (cs.length + 1) 0

/-! ## Stage C: span reconciliation (`make_token` with the `prune_shift` state) -/

/-- The fold underlying `make_token`: for each `(space segment, word piece)`
pair in order, produce the absolute span, applying (at most) the next pending
pruned span when the token's end passes its start; the running state is
`(shift_dist, next_prune)` as in the source. -/
def reconcileAux (pruned_spans : List Span) : List (Token × Token) → Nat → Nat → List Token
  | [], _, _ => []
  | (sp, tk) :: rest, shift, np =>
      let absS := sp.2.1 + tk.2.1 + shift
      let absE := sp.2.1 + tk.2.2 + shift
      match pruned_spans.get? np with
      | some pr =>
          if pr.1 < absE then
            let d := pr.2 - pr.1
            (tk.1, (absS, absE + d)) :: reconcileAux pruned_spans rest (shift + d) (np + 1)
          else (tk.1, (absS, absE)) :: reconcileAux pruned_spans rest shift np
      | none => (tk.1, (absS, absE)) :: reconcileAux pruned_spans rest shift np

/-! ## Stage D: sentence-terminal splicing -/

/-- The selection condition of the splicing pass: the token matches the
word-classification pattern at its start and is not an apostrophe mark, or it
contains a sentence-terminal character anywhere. -/
def spliceCond (w : List Char) : Bool :=
  (wordHasMatchAt0 w && !apoMatchAt0 w) || SENTENCE_TERMINALS.any fun t => w.contains t

/-- Stage D: look at the last up to three tokens from the end; for the first
that satisfies `spliceCond`, splice a sentence terminal off its border (the
source keeps `word[:-1]`, not `word[1:]`, in the leading-terminal branch). -/
def stageD (ts : List Token) : List Token :=
  let L := ts.length
  let cands := (ts.drop (L - 3)).reverse
  match cands.findIdx? (fun t => spliceCond t.1) with
  | none => ts
  | some i0 =>
      match cands.get? i0 with
      | none => ts
      | some (word, (s0, s1)) =>
          let idx := i0 + 1
          let j := L - idx
          if word.length - 1 = 0 ∨ word = str "..." then ts
          else if SENTENCE_TERMINALS.any (fun t => cAt word (word.length - 1) = t) then
            (ts.set j (word.dropLast, (s0, s1 - 1))).insertIdx (j + 1)
              ([cAt word (word.length - 1)], (s1 - 1, s1))
          else if SENTENCE_TERMINALS.any (fun t => cAt word 0 = t) then
            (ts.set j ([cAt word 0], (s0, s0 + 1))).insertIdx j
              (word.dropLast, (s0, s1 - 1))
          else ts

/-! ## Stage E: dangling-punctuation splicing -/

/-- The dangling characters `,;:`. -/
def dPunct : List Char := [',', ';', ':']

/-- A token the inner `while` of stage E would strip: length above one and a
dangling comma, semicolon or colon at the end. -/
def qualTok (t : Token) : Bool :=
  t.1.length > 1 && dPunct.contains (cAt t.1 (t.1.length - 1))

/-- The inner `while` of stage E on one token: repeatedly strip the trailing
dangling character, collecting the stripped single-character tokens in the
order the loop inserts them (ascending spans, right after the stem). -/
def expandAux : Nat → List Char → Nat → Nat → Token × List Token
  | 0, txt, s0, s1 => ((txt, (s0, s1)), [])
  | f + 1, txt, s0, s1 =>
      if txt.length > 1 && dPunct.contains (cAt txt (txt.length - 1)) then
        let r := expandAux f txt.dropLast s0 (s1 - 1)
        (r.1, r.2 ++ [([cAt txt (txt.length - 1)], (s1 - 1, s1))])
      else ((txt, (s0, s1)), [])

/-- The token list replacing one qualifying token after its inner `while`. -/
def expandTok (t : Token) : List Token :=
  let r := expandAux t.1.length t.1 t.2.1 t.2.2
  r.1 :: r.2

/-- Find the last token the end-to-start scan of stage E stops at, split as
`(prefix, token, suffix)`; `none` when no token qualifies. -/
def findLastQualSplit : List Token → Option (List Token × Token × List Token)
  | [] => none
  | t :: rest =>
      match findLastQualSplit rest with
      | some (p, x, q) => some (t :: p, x, q)
      | none => if qualTok t then some ([], t, rest) else none

/-- Number of qualifying tokens: the termination measure of the outer `while`. -/
def countQual (ts : List Token) : Nat := ts.countP qualTok

/-- The outer `while dirty` loop of stage E: expand the last qualifying token
and rescan, until none qualifies. -/
def stageEAux : Nat → List Token → List Token
  | 0, ts => ts
  | f + 1, ts =>
      match findLastQualSplit ts with
      | none => ts
      | some (p, t, q) => stageEAux f (p ++ expandTok t ++ q)

/-- Stage E with enough fuel to reach the fixpoint. -/
def stageE (ts : List Token) : List Token := stageEAux (countQual ts) ts

/-! ## `word_tokenizer` -/

/-- `word_tokenizer`: prune hyphenated linebreaks, segment the pruned text by
spaces and the word-classification pattern, reconcile spans against the
pruned-span list, then run the two splicing passes. -/
def word_tokenizer (sentence : List Char) : List Token :=
  let pr := hlbPrune sentence
  let pairs := (space_tokenizer pr.1).flatMap fun sp =>
    ((split_with_spans sp.1 (wordMatches sp.1)).filter fun t => !t.1.isEmpty).map
      fun t => (sp, t)
  stageE (stageD (reconcileAux pr.2 pairs 0 0))

/-! ## `IS_POSSESSIVE` and `IS_CONTRACTION`

Both patterns are `{alnum}+(?:{hyphen}{alnum}+)*` followed by a short anchored
suffix.  A full match against `body ++ suffix ++ $` exists exactly when the
last characters form the suffix and the prefix before them matches the body
grammar (the body classes are disjoint from the apostrophe classes, so the
decomposition at the suffix border is the only candidate; in-body backtracking
of `{alnum}+` is subsumed by checking the prefix as a whole).  `$` without
MULTILINE also matches just before a final newline, hence the wrapper. -/

/-- Continuation of the body grammar `{alnum}+(?:{hyphen}{alnum}+)*` after an
initial alnum character: alnum and single hyphens, every hyphen followed by an
alnum character, no trailing hyphen. -/
def bodyTail : List Char → Bool
  | [] => true
  | c :: rest =>
      if isAlnumCh c then bodyTail rest
      else
        isHyphenCh c &&
          (match rest with
           | [] => false
           | d :: _ => isAlnumCh d) &&
          bodyTail rest

/-- Full match of the body grammar `{alnum}+(?:{hyphen}{alnum}+)*`. -/
def bodyOk : List Char → Bool
  | [] => false
  | c :: rest => isAlnumCh c && bodyTail rest

/-- `IS_POSSESSIVE` without the final-newline `$` case: body then
`{apo}[sS]` or `[sS]{apo}`. -/
def isPossessiveCore (cs : List Char) : Bool :=
  match cs.reverse with
  | a :: b :: rest =>
      ((APOSTROPHES.contains b && (a = 's' || a = 'S')) ||
        ((b = 's' || b = 'S') && APOSTROPHES.contains a)) &&
        bodyOk rest.reverse
  | _ => false

/-- `IS_POSSESSIVE.match(token_text) is not None`. -/
def isPossessiveMatch (cs : List Char) : Bool :=
  isPossessiveCore cs ||
    (cAt cs (cs.length - 1) = '\n' && isPossessiveCore cs.dropLast)

/-- `IS_CONTRACTION` without the final-newline `$` case: body then an
apostrophe mark then one of `d|ll|m|re|s|t|ve`. -/
def isContractionCore (cs : List Char) : Bool :=
  match cs.reverse with
  | a :: b :: rest =>
      ((a = 'd' || a = 'm' || a = 's' || a = 't') && APOSTROPHES.contains b &&
          bodyOk rest.reverse) ||
        (match rest with
         | c :: rest2 =>
             ((b = 'l' && a = 'l') || (b = 'r' && a = 'e') || (b = 'v' && a = 'e')) &&
               APOSTROPHES.contains c && bodyOk rest2.reverse
         | [] => false)
  | _ => false

/-- `IS_CONTRACTION.match(token_text) is not None`. -/
def isContractionMatch (cs : List Char) : Bool :=
  isContractionCore cs ||
    (cAt cs (cs.length - 1) = '\n' && isContractionCore cs.dropLast)

/-! ## `split_possessive_markers` -/

/-- The loop of `split_possessive_markers`: iterate over the snapshot of the
token list while rewriting the (shared) list, `idx` pointing at the current
token's position in the rewritten list.  A split inserts the stem at `idx` and
overwrites the original token (now at `idx + 1`) with the tail. -/
def sp_aux : List Token → Nat → List Token → List Token
  | [], _, toks => toks
  | (txt, (s0, s1)) :: rest, idx, toks =>
      if isPossessiveMatch txt then
        if (cAt txt (txt.length - 1)).toLower = 's' &&
            APOSTROPHES.contains (cAt txt (txt.length - 2)) then
          sp_aux rest (idx + 2)
            ((toks.insertIdx idx (txt.dropLast.dropLast, (s0, s1 - 2))).set (idx + 1)
              (txt.drop (txt.length - 2), (s1 - 2, s1)))
        else if (cAt txt (txt.length - 2)).toLower = 's' &&
            APOSTROPHES.contains (cAt txt (txt.length - 1)) then
          sp_aux rest (idx + 2)
            ((toks.insertIdx idx (txt.dropLast, (s0, s1 - 1))).set (idx + 1)
              (txt.drop (txt.length - 1), (s1 - 1, s1)))
        else sp_aux rest (idx + 1) toks
      else sp_aux rest (idx + 1) toks

/-- `split_possessive_markers(tokens)`. -/
def split_possessive_markers (tokens : List Token) : List Token :=
  sp_aux tokens 0 tokens

/-- The per-token split of the (amended) possessive-splitter contract, written
from the spec's words: a token matching the possessive grammar that ends in an
apostrophe mark followed by s (case-insensitively) moves its final two
characters into a token of their own; one that ends in s followed by an
apostrophe mark moves only the final apostrophe character; spans are adjusted
by the moved length. -/
def splitPossessiveAmended (t : Token) : List Token :=
  let txt := t.1
  let s0 := t.2.1
  let s1 := t.2.2
  if isPossessiveMatch txt && (cAt txt (txt.length - 1)).toLower = 's' &&
      APOSTROPHES.contains (cAt txt (txt.length - 2)) then
    [(txt.take (txt.length - 2), (s0, s1 - 2)), (txt.drop (txt.length - 2), (s1 - 2, s1))]
  else if isPossessiveMatch txt && (cAt txt (txt.length - 2)).toLower = 's' &&
      APOSTROPHES.contains (cAt txt (txt.length - 1)) then
    [(txt.take (txt.length - 1), (s0, s1 - 1)), (txt.drop (txt.length - 1), (s1 - 1, s1))]
  else [t]

/-! ## `split_contractions` -/

/-- The body of one step of the `pos` loop of `split_contractions`: at an
apostrophe mark, move the split point one left for the `n't` special case,
insert the stem at `idx` and overwrite the original token (now at `idx + 1`)
with the suffix; `txt` and the span are always the snapshot values. -/
def scStep (txt : List Char) (s0 s1 pos idx : Nat) (toks : List Token) :
    Nat × List Token :=
  if APOSTROPHES.contains (cAt txt pos) then
    let pos2 :=
      if 2 < txt.length && pos + 2 = txt.length && cAt txt (txt.length - 1) = 't' &&
          cAt txt (pos - 1) = 'n' then pos - 1
      else pos
    (idx + 1,
      (toks.insertIdx idx (txt.take pos2, (s0, s0 + pos2))).set (idx + 1)
        (txt.drop pos2, (s0 + pos2, s1)))
  else (idx, toks)

/-- The `for pos in range(length - 1, -1, -1)` loop of `split_contractions`. -/
def scPosLoop (txt : List Char) (s0 s1 : Nat) : Nat → Nat → List Token → Nat × List Token
  | 0, idx, toks => scStep txt s0 s1 0 idx toks
  | p + 1, idx, toks =>
      let r := scStep txt s0 s1 (p + 1) idx toks
      scPosLoop txt s0 s1 p r.1 r.2

/-- The outer loop of `split_contractions` over the snapshot. -/
def sc_aux : List Token → Nat → List Token → List Token
  | [], _, toks => toks
  | (txt, (s0, s1)) :: rest, idx, toks =>
      if isContractionMatch txt && txt.length > 1 then
        let r := scPosLoop txt s0 s1 (txt.length - 1) idx toks
        sc_aux rest (r.1 + 1) r.2
      else sc_aux rest (idx + 1) toks

/-- `split_contractions(tokens_with_spans)`. -/
def split_contractions (tokens_with_spans : List Token) : List Token :=
  sc_aux tokens_with_spans 0 tokens_with_spans

/-! ## `web_tokenizer` -/

/-- Modelled from the Python standard library: `cgi.escape` with the default
`quote=False` replaces the ampersand first, then the angle brackets, which is
the same as escaping the three characters pointwise. -/
def cgiEscape (cs : List Char) : List Char :=
  cs.flatMap fun c =>
    if c = '&' then str "&amp;"
    else if c = '<' then str "&lt;"
    else if c = '>' then str "&gt;"
    else [c]

/-- Modelled from the Python standard library: `html.unescape` for the core
named entities; like the original it is the identity on ampersand-free text
and passes unrecognized ampersands through unchanged. -/
def unescapeAux : Nat → List Char → List Char
  | 0, cs => cs
  | f + 1, cs =>
      match cs with
      | [] => []
      | c :: rest =>
          if c = '&' then
            if rest.take 4 = str "amp;" then '&' :: unescapeAux f (rest.drop 4)
            else if rest.take 3 = str "lt;" then '<' :: unescapeAux f (rest.drop 3)
            else if rest.take 3 = str "gt;" then '>' :: unescapeAux f (rest.drop 3)
            else if rest.take 5 = str "quot;" then '"' :: unescapeAux f (rest.drop 5)
            else if rest.take 5 = str "apos;" then '\'' :: unescapeAux f (rest.drop 5)
            else c :: unescapeAux f rest
          else c :: unescapeAux f rest

/-- `html.unescape` (see `unescapeAux`). -/
def htmlUnescape (cs : List Char) : List Char := unescapeAux cs.length cs

/-- The scheme class `[A-z]` (the literal ASCII range of the pattern). -/
def isAzClass (c : Char) : Bool := 'A' ≤ c && c ≤ 'z'

/-- `[\w-]`. -/
def isWDashCh (c : Char) : Bool := isWordCh c || c = '-'

/-- The opening visual border class `[\s<"'(\[{]` of the lookbehind. -/
def isVisBefore (c : Char) : Bool :=
  isPyWs c || c = '<' || c = '"' || c = '\'' || c = '(' || c = '[' || c = '\u007B'

/-- The closing visual border class `[\s>"')\]}]` of the lookahead. -/
def isVisAfter (c : Char) : Bool :=
  isPyWs c || c = '>' || c = '"' || c = '\'' || c = ')' || c = ']' || c = '\u007D'

/-- The query class `[^\#\s'">)\]}]` (note: the comma is not excluded). -/
def isQueryCh (c : Char) : Bool :=
  !(c = '#' || isPyWs c || c = '\'' || c = '"' || c = '>' || c = ')' || c = ']' ||
    c = '\u007D')

/-- The path class `[^?\#\s'">)\]}]`: the query class minus the question mark. -/
def isPathCh (c : Char) : Bool := !(c = '?') && isQueryCh c

/-- The fragment class `[^\s'">)\]}]`. -/
def isFragCh (c : Char) : Bool :=
  !(isPyWs c || c = '\'' || c = '"' || c = '>' || c = ')' || c = ']' || c = '\u007D')

/-- The e-mail local-part class. -/
def isLocalCh (c : Char) : Bool :=
  isWordCh c || c = '.' || c = '#' || c = '$' || c = '%' || c = '&' || c = '\'' ||
  c = '*' || c = '+' || c = '/' || c = '=' || c = '!' || c = '?' || c = '^' ||
  c = '\u0060' || c = '\u007B' || c = '|' || c = '\u007D' || c = '~' || c = '-'

/-- End of the maximal run of class `p` from `j`, never reading past `n`
(needed because the negated classes would accept the out-of-range NUL). -/
def runEndB (p : Char → Bool) (cs : List Char) (n : Nat) : Nat → Nat → Nat
  | 0, j => j
  | f + 1, j => if j < n && p (cAt cs j) then runEndB p cs n f (j + 1) else j

/-- The greedy repetitions of `(?:[\w-]+\.)+`: the stack of positions after
each complete group, in order; backtracking over the repetition count tries
the stack from its end. -/
def hostGroups (cs : List Char) (n : Nat) : Nat → Nat → List Nat → List Nat
  | 0, _, acc => acc
  | f + 1, p, acc =>
      let r := runEndB isWDashCh cs n (n + 1) p
      if p < r && cAt cs r = '.' then hostGroups cs n f (r + 1) (acc ++ [r + 1])
      else acc

/-- The URI tail after the host: optional port, path, query and fragment, then
the closing-border lookahead.  Each optional group is greedy; skipping a group
that matched can never rescue the lookahead because the group openers
`:/?#` are not closing-border characters, so no cross-group backtracking is
observable. -/
def uriTail (cs : List Char) (n p : Nat) : Option Nat :=
  let p1 := if cAt cs p = ':' then
      (let d := runEndB isNumberCh cs n (n + 1) (p + 1)
       if p + 1 < d then d else p)
    else p
  let p2 := if cAt cs p1 = '/' then runEndB isPathCh cs n (n + 1) (p1 + 1) else p1
  let p3 := if cAt cs p2 = '?' then
      (let q := runEndB isQueryCh cs n (n + 1) (p2 + 1)
       if p2 + 1 < q then q else p2)
    else p2
  let p4 := if cAt cs p3 = '#' then
      (let g := runEndB isFragCh cs n (n + 1) (p3 + 1)
       if p3 + 1 < g then g else p3)
    else p3
  if p4 = n || isVisAfter (cAt cs p4) then some p4 else none

/-- Try the host-group candidates (most repetitions first): `\w+` then the
URI tail. -/
def tryHostCands (cs : List Char) (n : Nat) : List Nat → Option Nat
  | [] => none
  | q :: qs =>
      let tld := runEndB isWordCh cs n (n + 1) q
      if q < tld then
        match uriTail cs n tld with
        | some e => some e
        | none => tryHostCands cs n qs
      else tryHostCands cs n qs

/-- `(?:[\w-]+\.)+\w+` plus the URI tail, starting at `p`. -/
def uriHost (cs : List Char) (n p : Nat) : Option Nat :=
  tryHostCands cs n (hostGroups cs n (n + 1) p []).reverse

/-- The URI alternative at position `i`: scheme, `://`, optional user (the
greedy `[^@]+@` can only split at the first `@`), host and tail. -/
def uriAt (cs : List Char) (n i : Nat) : Option Nat :=
  let sch := runEndB isAzClass cs n (n + 1) i
  if i < sch && cAt cs sch = ':' && cAt cs (sch + 1) = '/' && cAt cs (sch + 2) = '/' then
    let p := sch + 3
    let r := runEndB (fun c => !(c = '@')) cs n (n + 1) p
    if p < r && cAt cs r = '@' then
      match uriHost cs n (r + 1) with
      | some e => some e
      | none => uriHost cs n p
    else uriHost cs n p
  else none

/-- Try the domain candidates of the e-mail alternative: `\w+` then the
closing-border lookahead. -/
def tryEmailCands (cs : List Char) (n : Nat) : List Nat → Option Nat
  | [] => none
  | q :: qs =>
      let tld := runEndB isWordCh cs n (n + 1) q
      if q < tld && (tld = n || isVisAfter (cAt cs tld)) then some tld
      else tryEmailCands cs n qs

/-- The e-mail alternative at position `i`: local part, `@`, domain. -/
def emailAt (cs : List Char) (n i : Nat) : Option Nat :=
  let loc := runEndB isLocalCh cs n (n + 1) i
  if i < loc && cAt cs loc = '@' then
    tryEmailCands cs n (hostGroups cs n (n + 1) (loc + 1) []).reverse
  else none

/-- One attempt of the protecting pattern of `web_tokenizer` at position `i`:
the opening-border lookbehind, then the URI alternative, then the e-mail one. -/
def webMatchAt (cs : List Char) (n i : Nat) : Option Nat :=
  if i = 0 || isVisBefore (cAt cs (i - 1)) then
    match uriAt cs n i with
    | some e => some e
    | none => emailAt cs n i
  else none

/-- `finditer` of the protecting pattern (the capture group is the whole
match; the lookarounds are zero-width). -/
def webMatchesAux (cs : List Char) (n : Nat) : Nat → Nat → List RMatch
  | 0, _ => []
  | f + 1, i =>
      if n ≤ i then []
      else
        match webMatchAt cs n i with
        | some e => ⟨i, e, [(extract cs i e, (i, e))]⟩ :: webMatchesAux cs n f e
        | none => webMatchesAux cs n f (i + 1)

/-- All matches of the protecting pattern in `cs`. -/
def webMatches (cs : List Char) : List RMatch :=
  webMatchesAux cs cs.length (cs.length + 1) 0

/-- `fix_regular_tokens`: walk the word tokens of an unescaped segment with a
running offset; where the token text does not equal the original text at its
(shifted) span, try the re-escaped form and, when it matches there, adopt the
escaped span and accumulate the length difference. -/
def fixRegularAux (sentence : List Char) : List Token → Nat → List Token
  | [], _ => []
  | (txt, (a, b)) :: rest, offset =>
      let sp : Span := (offset + a, offset + b)
      if extract sentence sp.1 sp.2 = txt then
        (txt, sp) :: fixRegularAux sentence rest offset
      else
        let esc := cgiEscape txt
        if extract sentence sp.1 (sp.1 + esc.length) = esc then
          (txt, (sp.1, sp.1 + esc.length)) ::
            fixRegularAux sentence rest (offset + esc.length - txt.length)
        else (txt, sp) :: fixRegularAux sentence rest offset

/-- `web_tokenizer`: split on the protecting pattern; segments at odd
positions (the protected matches) pass through verbatim; segments at even
positions are HTML-unescaped, word-tokenized, recoordinated with `make_sub`
and run through `fix_regular_tokens`. -/
def web_tokenizer (sentence : List Char) : List Token :=
  (split_with_spans sentence (webMatches sentence)).enum.flatMap fun p =>
    if p.1 % 2 = 1 then [p.2]
    else
      fixRegularAux sentence
        ((word_tokenizer (htmlUnescape p.2.1)).map fun t => make_sub p.2 t) 0


/-! ## Spec-side definitions used by the claim statements -/

/-- Removal of the material deleted by hyphenation pruning: every linebreak
and `SPACE` character (the round-trip strip of the core invariant). -/
def stripPruned (cs : List Char) : List Char :=
  cs.filter fun c => !(isLinebreakCh c || isSpaceCh c)

/-- Written from the spec's words (amended): the ordered sequence of non-empty
maximal substrings whose separators are runs of whitespace (`\s`) characters,
each paired with its span — that is, the maximal runs of non-whitespace
characters with their spans. -/
def specSpaceTokens (text : List Char) : List Token :=
  (runsOf (fun c => !isPyWs c) text).map fun r => (extract text r.1 r.2, r)

/-- Verbatim-token check for C9: non-empty text equal to the input at the
token's span. -/
def vbTok (text : List Char) (t : Token) : Bool :=
  !t.1.isEmpty && decide (t.1 = extract text t.2.1 t.2.2)

/-- The segments a groupless split keeps: the non-empty stretches between
consecutive match spans (and after the last one). -/
def segsBetween (text : List Char) : Nat → List Span → List Token
  | last, [] =>
      if last < text.length then [(extract text last text.length, (last, text.length))]
      else []
  | last, (s, e) :: rs =>
      (if last < s then [(extract text last s, (last, s))] else []) ++
        segsBetween text e rs

/-- Well-formed run list: ascending, non-empty, bounded by `len`. -/
def ChainRuns (len : Nat) : Nat → List Span → Prop
  | _, [] => True
  | lo, (s, e) :: rs => lo ≤ s ∧ s < e ∧ e ≤ len ∧ ChainRuns len e rs

/-- Well-formed match list over `text` from position `last`: ascending,
in-bounds, with every group text verbatim at its (in-bounds) span. -/
def WFMs (text : List Char) : Nat → List RMatch → Prop
  | _, [] => True
  | last, m :: ms =>
      last ≤ m.mstart ∧ m.mstart ≤ m.mend ∧ m.mend ≤ text.length ∧
        (∀ g ∈ m.groups, g.1 = extract text g.2.1 g.2.2 ∧ g.2.2 ≤ text.length) ∧
        WFMs text m.mend ms

/-! ## Concrete-evaluation theorems (claims C1, C2, C3, C5, C7, C10) -/

/-- C1: the round-trip property fails on the code: on `"ab-\ncd-\nef"` a
single token logically spans two pruned hyphenation-linebreak regions, but the
reconciliation applies only one shift per token (`if`, not a loop), so the
returned span `(0, 9)` misses the final character and stripping the pruned
linebreak/space characters from `original[0:9]` does not reproduce the token
text. -/
theorem c1_roundtrip_code_bug :
    word_tokenizer (str "ab-\ncd-\nef") = [(str "ab-cd-ef", (0, 9))] ∧
    stripPruned (extract (str "ab-\ncd-\nef") 0 9) ≠ str "ab-cd-ef" := by decide

/-- C2 (counterexample): `word_tokenizer("Fred's book.")` does not return the
four tokens claimed — the possessive is not split by `word_tokenizer`. -/
theorem c2_counterexample :
    word_tokenizer (str "Fred's book.") ≠
      [(str "Fred", (0, 4)), (str "'s", (4, 6)), (str "book", (7, 11)),
       (str ".", (11, 12))] := by decide

/-- C2 (amended): `word_tokenizer("Fred's book.")` returns the three tokens
`"Fred's"`, `"book"`, `"."` with spans exactly covering those substrings; the
claimed four tokens are produced by the `split_possessive_markers`
post-processor applied to that output. -/
theorem c2_amended_tokens :
    word_tokenizer (str "Fred's book.") =
      [(str "Fred's", (0, 6)), (str "book", (7, 11)), (str ".", (11, 12))] ∧
    split_possessive_markers (word_tokenizer (str "Fred's book.")) =
      [(str "Fred", (0, 4)), (str "'s", (4, 6)), (str "book", (7, 11)),
       (str ".", (11, 12))] := by decide

/-- C3: in the leading-sentence-terminal branch of stage D the source splits
off the leading character but pairs it with `word[:-1]` (all but the *last*
character) instead of the remaining characters, with overlapping spans: on the
input `".["` the selected token `".["` becomes two copies of `(".", (0, 1))`
and the claimed partition token `("[", (1, 2))` never appears. -/
theorem c3_leading_splice_code_bug :
    word_tokenizer (str ".[") = [(str ".", (0, 1)), (str ".", (0, 1))] ∧
    (str "[", (1, 2)) ∉ word_tokenizer (str ".[") := by decide

/-- C5 (counterexample): `split_contractions [("don't", (0,5))]` does not
return `[("don", (0,3)), ("'t", (3,5))]`. -/
theorem c5_counterexample :
    split_contractions [(str "don't", (0, 5))] ≠
      [(str "don", (0, 3)), (str "'t", (3, 5))] := by decide

/-- C5 (amended): the `n't` special case moves the split point before the
`n`, so `split_contractions [("don't", (0,5))]` returns
`[("do", (0,2)), ("n't", (2,5))]`. -/
theorem c5_amended_contraction :
    split_contractions [(str "don't", (0, 5))] =
      [(str "do", (0, 2)), (str "n't", (2, 5))] := by decide

/-- C7 (counterexample): in `web_tokenizer("see http://ex.com/a?b=c, ok?")`
no token is the bare URI `"http://ex.com/a?b=c"` with its span `(4, 23)`. -/
theorem c7_counterexample :
    (str "http://ex.com/a?b=c", (4, 23)) ∉
      web_tokenizer (str "see http://ex.com/a?b=c, ok?") := by decide

/-- C7 (amended): the query-part class of the protecting pattern admits the
comma, so the protected token is `"http://ex.com/a?b=c,"` (trailing comma
included) with span `(4, 24)`, emitted verbatim and unsplit; the surrounding
text is tokenized as by the word tokenizer. -/
theorem c7_amended_web :
    web_tokenizer (str "see http://ex.com/a?b=c, ok?") =
      [(str "see", (0, 3)), (str "http://ex.com/a?b=c,", (4, 24)),
       (str "ok", (25, 27)), (str "?", (27, 28))] := by decide

/-- C10: `split_contractions [("n't", (0,3))]` returns an empty-text,
empty-span stem token followed by the unchanged `"n't"`. -/
theorem c10_empty_stem_token :
    split_contractions [(str "n't", (0, 3))] =
      [(str "", (0, 0)), (str "n't", (0, 3))] := by decide

/-! ## Claim C4: the possessive splitter -/

/-- The two-token splice of the post-processing loops: insert at the border of
the processed prefix and overwrite the shifted original token. -/
theorem splice2 {α : Type} (l1 l2 : List α) (t x y : α) :
    ((l1 ++ t :: l2).insertIdx l1.length x).set (l1.length + 1) y =
      l1 ++ x :: y :: l2 := by
  induction l1 with
  | nil => simp [List.insertIdx_zero, List.set_cons_succ, List.set_cons_zero]
  | cons a l ih => simpa [List.insertIdx_succ_cons, List.set_cons_succ] using ih

/-- Stripping the last two elements is taking all but the last two. -/
theorem dropLast_dropLast {α : Type} (l : List α) :
    l.dropLast.dropLast = l.take (l.length - 2) := by
  rw [List.dropLast_eq_take, List.length_dropLast, List.dropLast_eq_take,
    List.take_take]
  congr 1
  omega

/-- The snapshot loop of `split_possessive_markers` rewrites the token list by
replacing every token with its per-token split, the index bookkeeping of the
in-place insertions notwithstanding. -/
theorem sp_aux_flatMap (snap : List Token) : ∀ done : List Token,
    sp_aux snap done.length (done ++ snap) =
      done ++ snap.flatMap splitPossessiveAmended := by
  induction snap with
  | nil => intro done; simp [sp_aux]
  | cons t rest ih =>
    intro done
    obtain ⟨txt, s0, s1⟩ := t
    by_cases hm : isPossessiveMatch txt = true
    · by_cases h1 : ((cAt txt (txt.length - 1)).toLower = 's' &&
          APOSTROPHES.contains (cAt txt (txt.length - 2))) = true
      · simp only [sp_aux, if_pos hm, if_pos h1]
        rw [splice2]
        have hih := ih (done ++
          [(txt.dropLast.dropLast, (s0, s1 - 2)), (txt.drop (txt.length - 2), (s1 - 2, s1))])
        simp only [List.length_append, List.length_cons, List.length_nil,
          List.append_assoc, List.cons_append, List.nil_append] at hih
        rw [hih]
        simp at h1
        simp [splitPossessiveAmended, hm, h1, dropLast_dropLast]
      · by_cases h2 : ((cAt txt (txt.length - 2)).toLower = 's' &&
            APOSTROPHES.contains (cAt txt (txt.length - 1))) = true
        · simp only [sp_aux, if_pos hm, if_neg h1, if_pos h2]
          rw [splice2]
          have hih := ih (done ++
            [(txt.dropLast, (s0, s1 - 1)), (txt.drop (txt.length - 1), (s1 - 1, s1))])
          simp only [List.length_append, List.length_cons, List.length_nil,
            List.append_assoc, List.cons_append, List.nil_append] at hih
          rw [hih]
          simp at h1 h2
          simp [splitPossessiveAmended, hm, h1, h2, List.dropLast_eq_take]
          rw [if_neg (fun hA => (h1 hA.1) hA.2)]
          simp
        · simp only [sp_aux, if_pos hm, if_neg h1, if_neg h2]
          have hih := ih (done ++ [(txt, (s0, s1))])
          simp only [List.length_append, List.length_cons, List.length_nil,
            List.append_assoc, List.cons_append, List.nil_append] at hih
          rw [hih]
          simp at h1 h2
          simp [splitPossessiveAmended, hm, h1, h2]
          rw [if_neg (fun hA => (h1 hA.1) hA.2), if_neg (fun hA => (h2 hA.1) hA.2)]
          simp
    · simp only [sp_aux, if_neg hm]
      have hih := ih (done ++ [(txt, (s0, s1))])
      simp only [List.length_append, List.length_cons, List.length_nil,
        List.append_assoc, List.cons_append, List.nil_append] at hih
      rw [hih]
      simp [splitPossessiveAmended, hm]

/-- C4 (counterexample): on a token ending in s followed by an apostrophe the
splitter moves only the final apostrophe, not the final two characters as
claimed. -/
theorem c4_counterexample :
    split_possessive_markers [(str "boys'", (0, 5))] =
      [(str "boys", (0, 4)), (str "'", (4, 5))] ∧
    split_possessive_markers [(str "boys'", (0, 5))] ≠
      [(str "boy", (0, 3)), (str "s'", (3, 5))] := by decide

/-- C4 (amended): for every token list, `split_possessive_markers` replaces
each token with its split: a token matching the possessive grammar that ends
in an apostrophe mark followed by s (case-insensitively) has its final two
characters moved into a new token with the spans adjusted by 2, while a token
ending in s followed by an apostrophe mark has only its final apostrophe
character moved, with the spans adjusted by 1. -/
theorem c4_possessive_flatMap (ts : List Token) :
    split_possessive_markers ts = ts.flatMap splitPossessiveAmended := by
  simpa [split_possessive_markers] using sp_aux_flatMap ts []

/-! ## Claim C8: dangling-punctuation splicing reaches a fixpoint -/

/-- The stem the inner `while` leaves behind never qualifies again. -/
theorem expandAux_stem_not_qual :
    ∀ (f : Nat) (txt : List Char) (s0 s1 : Nat), txt.length ≤ f + 1 →
      qualTok (expandAux f txt s0 s1).1 = false := by
  intro f
  induction f with
  | zero =>
    intro txt s0 s1 h
    simp only [expandAux, qualTok]
    simp only [Bool.and_eq_false_iff]
    left
    simp
    omega
  | succ f ih =>
    intro txt s0 s1 h
    by_cases hc : (txt.length > 1 && dPunct.contains (cAt txt (txt.length - 1))) = true
    · simp only [expandAux, if_pos hc]
      exact ih txt.dropLast s0 (s1 - 1) (by simp [List.length_dropLast]; omega)
    · simp only [expandAux, if_neg hc]
      simpa [qualTok] using hc

/-- The stripped single-character tokens never qualify. -/
theorem expandAux_tails_not_qual :
    ∀ (f : Nat) (txt : List Char) (s0 s1 : Nat),
      ∀ t ∈ (expandAux f txt s0 s1).2, qualTok t = false := by
  intro f
  induction f with
  | zero => intro txt s0 s1 t ht; simp [expandAux] at ht
  | succ f ih =>
    intro txt s0 s1 t ht
    by_cases hc : (txt.length > 1 && dPunct.contains (cAt txt (txt.length - 1))) = true
    · simp only [expandAux, if_pos hc, List.mem_append, List.mem_singleton] at ht
      rcases ht with ht | ht
      · exact ih txt.dropLast s0 (s1 - 1) t ht
      · subst ht; simp [qualTok]
    · simp only [expandAux] at ht
      rw [if_neg hc] at ht
      simp at ht

/-- Expanding a token leaves no qualifying token. -/
theorem countQual_expandTok (t : Token) : countQual (expandTok t) = 0 := by
  rw [countQual, List.countP_eq_zero]
  intro x hx
  simp only [expandTok, List.mem_cons] at hx
  rcases hx with hx | hx
  · subst hx
    simp [expandAux_stem_not_qual t.1.length t.1 t.2.1 t.2.2 (Nat.le_succ _)]
  · simp [expandAux_tails_not_qual t.1.length t.1 t.2.1 t.2.2 x hx]

/-- What `findLastQualSplit` returns: a decomposition at a qualifying token. -/
theorem findLastQualSplit_eq :
    ∀ (ts p : List Token) (t : Token) (q : List Token),
      findLastQualSplit ts = some (p, t, q) → ts = p ++ t :: q ∧ qualTok t = true := by
  intro ts
  induction ts with
  | nil => intro p t q h; simp [findLastQualSplit] at h
  | cons a rest ih =>
    intro p t q h
    simp only [findLastQualSplit] at h
    cases hr : findLastQualSplit rest with
    | some w =>
      obtain ⟨p1, t1, q1⟩ := w
      rw [hr] at h
      simp only [Option.some.injEq, Prod.mk.injEq] at h
      obtain ⟨h1, h2, h3⟩ := h
      obtain ⟨he, hq⟩ := ih p1 t1 q1 hr
      subst h2 h3
      rw [← h1]
      exact ⟨by rw [he]; simp, hq⟩
    | none =>
      rw [hr] at h
      by_cases hq : qualTok a = true
      · rw [if_pos hq] at h
        simp only [Option.some.injEq, Prod.mk.injEq] at h
        obtain ⟨h1, h2, h3⟩ := h
        subst h2 h3
        rw [← h1]
        simp [hq]
      · rw [if_neg hq] at h
        cases h

/-- When no token qualifies, the count of qualifying tokens is zero. -/
theorem findLastQualSplit_none :
    ∀ ts : List Token, findLastQualSplit ts = none → countQual ts = 0 := by
  intro ts
  induction ts with
  | nil => intro _; simp [countQual]
  | cons a rest ih =>
    intro h
    simp only [findLastQualSplit] at h
    cases hr : findLastQualSplit rest with
    | some w => rw [hr] at h; cases h
    | none =>
      rw [hr] at h
      by_cases hq : qualTok a = true
      · rw [if_pos hq] at h; cases h
      · have := ih hr
        simp only [countQual, List.countP_cons] at this ⊢
        simp [hq, this]

/-- With fuel at least the count of qualifying tokens, stage E removes all of
them. -/
theorem stageEAux_count :
    ∀ (f : Nat) (ts : List Token), countQual ts ≤ f →
      countQual (stageEAux f ts) = 0 := by
  intro f
  induction f with
  | zero => intro ts h; simpa [stageEAux] using Nat.le_zero.mp h
  | succ f ih =>
    intro ts h
    cases hf : findLastQualSplit ts with
    | none => simpa [stageEAux, hf] using findLastQualSplit_none ts hf
    | some w =>
      obtain ⟨p, t, q⟩ := w
      obtain ⟨he, hq⟩ := findLastQualSplit_eq ts p t q hf
      have hc : countQual (p ++ expandTok t ++ q) = countQual p + countQual q := by
        have h1 := countQual_expandTok t
        simp only [countQual] at h1 ⊢
        rw [List.countP_append, List.countP_append, h1]
        omega
      have hts : countQual ts = countQual p + 1 + countQual q := by
        rw [he]
        simp only [countQual]
        rw [List.countP_append, List.countP_cons]
        simp [hq]
        omega
      simp only [stageEAux, hf]
      exact ih (p ++ expandTok t ++ q) (by omega)

/-- Stage E leaves no qualifying token. -/
theorem stageE_countQual (ts : List Token) : countQual (stageE ts) = 0 :=
  stageEAux_count (countQual ts) ts (Nat.le_refl _)

/-- A list with no qualifying token is a fixpoint of stage E. -/
theorem stageE_of_countQual_zero (ts : List Token) (h : countQual ts = 0) :
    stageE ts = ts := by
  rw [stageE, h]
  rfl

/-- C8: dangling-punctuation splicing is idempotent — stage E applied to its
own output changes nothing — and consequently no token of length above one in
`word_tokenizer`'s output ends in a comma, semicolon or colon, for every
input text. -/
theorem c8_splicing_idempotent :
    (∀ ts : List Token, stageE (stageE ts) = stageE ts) ∧
    (∀ cs : List Char, (word_tokenizer cs).all (fun t => !qualTok t) = true) := by
  constructor
  · intro ts
    exact stageE_of_countQual_zero (stageE ts) (stageE_countQual ts)
  · intro cs
    rw [List.all_eq_true]
    intro t ht
    have h0 : countQual (word_tokenizer cs) = 0 := by
      have hw : word_tokenizer cs =
          stageE (stageD (reconcileAux (hlbPrune cs).2
            ((space_tokenizer (hlbPrune cs).1).flatMap fun sp =>
              ((split_with_spans sp.1 (wordMatches sp.1)).filter fun t => !t.1.isEmpty).map
                fun t => (sp, t)) 0 0)) := rfl
      rw [hw]
      exact stageE_countQual _
    have := (List.countP_eq_zero.mp h0) t ht
    simpa using this

/-! ## Claim C9: space and symbol tokens are verbatim substrings -/

/-- A chain of runs may start from any earlier lower bound. -/
theorem ChainRuns_mono (len : Nat) :
    ∀ (rs : List Span) (lo lo' : Nat), lo' ≤ lo →
      ChainRuns len lo rs → ChainRuns len lo' rs := by
  intro rs
  cases rs with
  | nil => intro lo lo' _ _; trivial
  | cons r rt =>
    intro lo lo' h hc
    obtain ⟨s, e⟩ := r
    simp only [ChainRuns] at hc ⊢
    exact ⟨Nat.le_trans h hc.1, hc.2⟩

/-- The run scanner produces an ascending, non-empty, in-bounds chain, both
from the closed state and from an open run ending at the scan position. -/
theorem runsAux_chain (p : Char → Bool) :
    ∀ (cs : List Char) (pos len : Nat), pos + cs.length ≤ len →
      ChainRuns len pos (runsAux p cs pos none) ∧
      (∀ s : Nat, s < pos → ChainRuns len s (runsAux p cs pos (some (s, pos)))) := by
  intro cs
  induction cs with
  | nil =>
    intro pos len hlen
    refine ⟨trivial, ?_⟩
    intro s hs
    simp only [runsAux, ChainRuns]
    exact ⟨Nat.le_refl s, hs, by omega, trivial⟩
  | cons c rest ih =>
    intro pos len hlen
    have hlen' : (pos + 1) + rest.length ≤ len := by
      simp only [List.length_cons] at hlen
      omega
    constructor
    · simp only [runsAux]
      by_cases hc : p c = true
      · rw [if_pos hc]
        exact (ih (pos + 1) len hlen').2 pos (Nat.lt_succ_self pos)
      · rw [if_neg hc]
        exact ChainRuns_mono len _ (pos + 1) pos (Nat.le_succ pos)
          ((ih (pos + 1) len hlen').1)
    · intro s hs
      simp only [runsAux]
      by_cases hc : p c = true
      · rw [if_pos hc]
        exact (ih (pos + 1) len hlen').2 s (by omega)
      · rw [if_neg hc]
        simp only [ChainRuns]
        refine ⟨Nat.le_refl s, hs, by omega, ?_⟩
        exact ChainRuns_mono len _ (pos + 1) pos (Nat.le_succ pos)
          ((ih (pos + 1) len hlen').1)

/-- Groupless matches built from a chain of runs are well-formed. -/
theorem wfms_of_chain_ws (text : List Char) :
    ∀ (rs : List Span) (lo : Nat), ChainRuns text.length lo rs →
      WFMs text lo (rs.map fun r => (⟨r.1, r.2, []⟩ : RMatch)) := by
  intro rs
  induction rs with
  | nil => intro lo _; trivial
  | cons r rt ih =>
    intro lo h
    obtain ⟨s, e⟩ := r
    simp only [ChainRuns] at h
    simp only [List.map_cons, WFMs]
    exact ⟨h.1, Nat.le_of_lt h.2.1, h.2.2.1, by simp, ih e h.2.2.2⟩

/-- Whole-match-group matches built from a chain of runs are well-formed: the
group text is the verbatim substring at the (in-bounds) group span. -/
theorem wfms_of_chain_alnum (text : List Char) :
    ∀ (rs : List Span) (lo : Nat), ChainRuns text.length lo rs →
      WFMs text lo
        (rs.map fun r => (⟨r.1, r.2, [(extract text r.1 r.2, r)]⟩ : RMatch)) := by
  intro rs
  induction rs with
  | nil => intro lo _; trivial
  | cons r rt ih =>
    intro lo h
    obtain ⟨s, e⟩ := r
    simp only [ChainRuns] at h
    simp only [List.map_cons, WFMs]
    refine ⟨h.1, Nat.le_of_lt h.2.1, h.2.2.1, ?_, ih e h.2.2.2⟩
    intro g hg
    simp only [List.mem_singleton] at hg
    subst hg
    exact ⟨rfl, h.2.2.1⟩

/-- Over a well-formed match list, every piece of the split carries the
verbatim substring of the text at its span, and its span end is in bounds. -/
theorem split_aux_wf (text : List Char) :
    ∀ (ms : List RMatch) (last : Nat), WFMs text last ms → last ≤ text.length →
      ∀ t ∈ split_with_spans_aux text last ms,
        t.1 = extract text t.2.1 t.2.2 ∧ t.2.2 ≤ text.length := by
  intro ms
  induction ms with
  | nil =>
    intro last _ _ t ht
    simp only [split_with_spans_aux, List.mem_singleton] at ht
    subst ht
    exact ⟨rfl, Nat.le_refl _⟩
  | cons m ms ih =>
    intro last hwf hlast t ht
    simp only [WFMs] at hwf
    simp only [split_with_spans_aux, List.cons_append, List.mem_cons,
      List.mem_append] at ht
    rcases ht with ht | ht | ht
    · subst ht
      exact ⟨rfl, Nat.le_trans hwf.2.1 hwf.2.2.1⟩
    · exact hwf.2.2.2.1 t ht
    · exact ih m.mend hwf.2.2.2.2 hwf.2.2.1 t ht

/-- Composing nested extractions: an inner span within the extracted text
addresses the same characters as the shifted span in the whole text. -/
theorem extract_extract (cs : List Char) (os oe is ie : Nat)
    (h : ie ≤ (extract cs os oe).length) :
    extract (extract cs os oe) is ie = extract cs (os + is) (os + ie) := by
  have h1 : ie ≤ oe - os := by
    simp only [extract, List.length_take, List.length_drop] at h
    omega
  show (((cs.drop os).take (oe - os)).drop is).take (ie - is) =
    (cs.drop (os + is)).take (os + ie - (os + is))
  rw [List.drop_take, List.take_take, List.drop_drop]
  congr 1
  omega

/-- Verbatim tokens of the space tokenizer, with the in-bounds fact needed by
the symbol tokenizer's composition. -/
theorem space_tokenizer_verbatim (cs : List Char) :
    ∀ t ∈ space_tokenizer cs,
      t.1 ≠ [] ∧ t.1 = extract cs t.2.1 t.2.2 ∧ t.2.2 ≤ cs.length := by
  intro t ht
  simp only [space_tokenizer, List.mem_filter] at ht
  obtain ⟨hmem, hne⟩ := ht
  have hwf : WFMs cs 0 (wsMatches cs) :=
    wfms_of_chain_ws cs _ 0 ((runsAux_chain isPyWs cs 0 cs.length (by simp)).1)
  have h2 := split_aux_wf cs (wsMatches cs) 0 hwf (Nat.zero_le _) t hmem
  exact ⟨by simpa using hne, h2.1, h2.2⟩

/-- C9: every token of `space_tokenizer` and of `symbol_tokenizer` has
non-empty text equal to the verbatim input substring at its span. -/
theorem c9_verbatim_tokens (cs : List Char) :
    (space_tokenizer cs).all (vbTok cs) = true ∧
    (symbol_tokenizer cs).all (vbTok cs) = true := by
  constructor
  · rw [List.all_eq_true]
    intro t ht
    obtain ⟨h1, h2, _⟩ := space_tokenizer_verbatim cs t ht
    simp [vbTok, h1, ← h2]
  · rw [List.all_eq_true]
    intro t ht
    simp only [symbol_tokenizer, List.mem_flatMap] at ht
    obtain ⟨sp, hsp, ht⟩ := ht
    simp only [List.mem_map, List.mem_filter] at ht
    obtain ⟨u, ⟨humem, hune⟩, hmk⟩ := ht
    obtain ⟨hne, heq, hbound⟩ := space_tokenizer_verbatim cs sp hsp
    obtain ⟨stxt, os, oe⟩ := sp
    obtain ⟨utxt, is, ie⟩ := u
    have hwfA : WFMs stxt 0 (alnumMatches stxt) :=
      wfms_of_chain_alnum stxt _ 0
        ((runsAux_chain isAlnumCh stxt 0 stxt.length (by simp)).1)
    have hu := split_aux_wf stxt (alnumMatches stxt) 0 hwfA (Nat.zero_le _)
      (utxt, (is, ie)) humem
    simp only [make_sub] at hmk
    subst hmk
    have hie : ie ≤ (extract cs os oe).length := by
      rw [← heq]
      exact hu.2
    have : utxt = extract cs (os + is) (os + ie) := by
      rw [← extract_extract cs os oe is ie hie, ← heq]
      exact hu.1
    simp [vbTok, ← this]
    simpa using hune

/-! ## Claim C6: the space tokenizer -/

/-- An extracted slice is empty exactly when the span is empty or starts past
the end. -/
theorem extract_nil_iff (text : List Char) (a b : Nat) :
    extract text a b = [] ↔ b ≤ a ∨ text.length ≤ a := by
  rw [← List.length_eq_zero]
  simp only [extract, List.length_take, List.length_drop]
  omega

/-- Filtering the empty pieces out of a groupless split keeps exactly the
non-empty stretches between consecutive matches. -/
theorem split_filter_segs (text : List Char) :
    ∀ (rs : List Span) (last : Nat), ChainRuns text.length last rs →
      ((split_with_spans_aux text last
          (rs.map fun r => (⟨r.1, r.2, []⟩ : RMatch))).filter
        fun t => !t.1.isEmpty) = segsBetween text last rs := by
  intro rs
  induction rs with
  | nil =>
    intro last _
    simp only [List.map_nil, split_with_spans_aux, segsBetween, List.filter_cons,
      List.filter_nil]
    by_cases hl : last < text.length
    · have hne : extract text last text.length ≠ [] := by
        rw [Ne, extract_nil_iff]
        omega
      rw [if_pos (show (!(extract text last text.length).isEmpty) = true by
        simpa using hne), if_pos hl]
    · have he : extract text last text.length = [] := by
        rw [extract_nil_iff]
        omega
      rw [if_neg (show ¬((!(extract text last text.length).isEmpty) = true) by
        simp [he]), if_neg hl]
  | cons r rt ih =>
    intro last h
    obtain ⟨s, e⟩ := r
    simp only [ChainRuns] at h
    obtain ⟨h1, h2, h3, h4⟩ := h
    simp only [List.map_cons, split_with_spans_aux, List.nil_append, segsBetween,
      List.filter_append, List.filter_cons, List.filter_nil]
    by_cases hl : last < s
    · have hne : extract text last s ≠ [] := by
        rw [Ne, extract_nil_iff]
        omega
      rw [if_pos hl,
        if_pos (show (!(extract text last s).isEmpty) = true by simpa using hne)]
      rw [ih e h4]
    · have he : extract text last s = [] := by
        rw [extract_nil_iff]
        omega
      rw [if_neg hl,
        if_neg (show ¬((!(extract text last s).isEmpty) = true) by simp [he])]
      rw [ih e h4]

/-- The simultaneous scan: the non-empty stretches between the whitespace runs
are exactly the maximal non-whitespace runs, in the three reachable states of
the two dual scanners (no open run; an open whitespace run; an open
non-whitespace run). -/
theorem segs_runs_spec (text : List Char) :
    ∀ (cs : List Char) (pos : Nat), text.drop pos = cs → pos ≤ text.length →
      (segsBetween text pos (runsAux isPyWs cs pos none) =
        (runsAux (fun c => !isPyWs c) cs pos none).map
          fun r => (extract text r.1 r.2, r)) ∧
      (∀ l s : Nat, l ≤ s → s < pos →
        segsBetween text l (runsAux isPyWs cs pos (some (s, pos))) =
          (if l < s then [(extract text l s, (l, s))] else []) ++
            (runsAux (fun c => !isPyWs c) cs pos none).map
              (fun r => (extract text r.1 r.2, r))) ∧
      (∀ s : Nat, s < pos →
        segsBetween text s (runsAux isPyWs cs pos none) =
          (runsAux (fun c => !isPyWs c) cs pos (some (s, pos))).map
            fun r => (extract text r.1 r.2, r)) := by
  intro cs
  induction cs with
  | nil =>
    intro pos hdrop hpos
    have hlen : text.length = pos := by
      have := List.length_drop pos text
      rw [hdrop] at this
      simp at this
      omega
    refine ⟨?_, ?_, ?_⟩
    · simp [runsAux, segsBetween, hlen]
    · intro l s hls hsp
      simp [runsAux, segsBetween, hlen, Nat.lt_irrefl]
    · intro s hsp
      simp only [runsAux, segsBetween, List.map_cons, List.map_nil]
      rw [if_pos (by omega)]
      rw [hlen]
  | cons c rest ih =>
    intro pos hdrop hpos
    have hdrop' : text.drop (pos + 1) = rest := by
      have h1 : (text.drop pos).drop 1 = text.drop (pos + 1) := by
        rw [List.drop_drop]
      rw [hdrop] at h1
      simpa using h1.symm
    have hpos' : pos + 1 ≤ text.length := by
      have := List.length_drop pos text
      rw [hdrop] at this
      simp at this
      omega
    have IH := ih (pos + 1) hdrop' hpos'
    refine ⟨?_, ?_, ?_⟩
    · by_cases hc : isPyWs c = true
      · have hn : ¬((!isPyWs c) = true) := by simp [hc]
        simp only [runsAux, if_pos hc, if_neg hn]
        have := IH.2.1 pos pos (Nat.le_refl pos) (Nat.lt_succ_self pos)
        simpa [Nat.lt_irrefl] using this
      · have hp : (!isPyWs c) = true := by simp [hc]
        simp only [runsAux, if_neg hc, if_pos hp]
        exact IH.2.2 pos (Nat.lt_succ_self pos)
    · intro l s hls hsp
      by_cases hc : isPyWs c = true
      · have hn : ¬((!isPyWs c) = true) := by simp [hc]
        simp only [runsAux, if_pos hc, if_neg hn]
        exact IH.2.1 l s hls (by omega)
      · have hp : (!isPyWs c) = true := by simp [hc]
        simp only [runsAux, if_neg hc, if_pos hp]
        simp only [segsBetween]
        rw [IH.2.2 pos (Nat.lt_succ_self pos)]
    · intro s hsp
      by_cases hc : isPyWs c = true
      · have hn : ¬((!isPyWs c) = true) := by simp [hc]
        simp only [runsAux, if_pos hc, if_neg hn]
        have := IH.2.1 s pos (by omega) (Nat.lt_succ_self pos)
        rw [if_pos hsp] at this
        simpa using this
      · have hp : (!isPyWs c) = true := by simp [hc]
        simp only [runsAux, if_neg hc, if_pos hp]
        exact IH.2.2 s (by omega)

/-- C6 (counterexample): a linebreak is a separator of `space_tokenizer`
(its separator class is the whole `\s`, not just Zs plus tab): `"a\nb"`
splits into two tokens instead of staying whole. -/
theorem c6_counterexample :
    space_tokenizer (str "a\nb") = [(str "a", (0, 1)), (str "b", (2, 3))] ∧
    space_tokenizer (str "a\nb") ≠ [(str "a\nb", (0, 3))] := by decide

/-- C6 (amended): for every input text, `space_tokenizer` returns exactly the
ordered sequence of non-empty maximal substrings whose separators are runs of
one or more whitespace characters (the `\s` class, which includes the
linebreaks), each token paired with its half-open span in the input; empty
input yields an empty sequence. -/
theorem c6_amended_space_tokens (text : List Char) :
    space_tokenizer text = specSpaceTokens text ∧
    space_tokenizer ([] : List Char) = [] := by
  constructor
  · have hchain : ChainRuns text.length 0 (runsOf isPyWs text) :=
      (runsAux_chain isPyWs text 0 text.length (by simp)).1
    have h1 : space_tokenizer text = segsBetween text 0 (runsOf isPyWs text) := by
      rw [space_tokenizer, split_with_spans]
      exact split_filter_segs text (runsOf isPyWs text) 0 hchain
    rw [h1]
    exact (segs_runs_spec text text 0 (by simp) (Nat.zero_le _)).1
  · rfl

/-! ## Concrete witnesses of the universally quantified theorems -/

/-- C4 witness: the possessive-splitter equation evaluated on a concrete
token list. -/
theorem c4_possessive_flatMap_witness :
    split_possessive_markers [(str "Fred's", (0, 6))] =
      [(str "Fred", (0, 4)), (str "'s", (4, 6))] := by
  rw [c4_possessive_flatMap]
  decide

/-- C6 witness: the space-tokenizer contract evaluated on a concrete input. -/
theorem c6_amended_space_tokens_witness :
    space_tokenizer (str "a b") = specSpaceTokens (str "a b") ∧
    specSpaceTokens (str "a b") = [(str "a", (0, 1)), (str "b", (2, 3))] :=
  ⟨(c6_amended_space_tokens (str "a b")).1, by decide⟩

/-- C8 witness: idempotence and the no-dangling property on concrete data. -/
theorem c8_splicing_idempotent_witness :
    stageE (stageE [(str "a,", (0, 2))]) = stageE [(str "a,", (0, 2))] ∧
    (word_tokenizer (str "a, b")).all (fun t => !qualTok t) = true :=
  ⟨c8_splicing_idempotent.1 [(str "a,", (0, 2))], c8_splicing_idempotent.2 (str "a, b")⟩

/-- C9 witness: the verbatim property on a concrete input. -/
theorem c9_verbatim_tokens_witness :
    (space_tokenizer (str "a.b c")).all (vbTok (str "a.b c")) = true ∧
    (symbol_tokenizer (str "a.b c")).all (vbTok (str "a.b c")) = true :=
  c9_verbatim_tokens (str "a.b c")

end Segtok
